import Mathlib

/-! Verification of the KiCad symbol-library parser (`scripts/parse_kicad_python.py`).

The Python source is shallowly embedded.  Strings are `String` / `List Char`;
a Python `dict` is an insertion-ordered association list (`dupdate` replaces
the first occurrence of a key in place, like `d[k] = v`); the `float` values
of the numeric tokens accepted by the source's patterns are modelled as exact
rationals (negation, `min` and `max` on such values are exact in IEEE
arithmetic as well); a Python exception (`float` applied to a token such as
`"1.2.3"`, which the character class `[-\d.]+` can produce) is modelled by
`Option`, with `none` standing for the raised exception.  The regular
expressions of the source are embedded by a backtracking matcher (`matchL`)
that enumerates alternatives in Python's preference order (leftmost match,
greedy quantifiers longest first, lazy quantifiers shortest first), so the
head of the result list is Python's match; every quantifier in the source's
patterns ranges over a single-character class, which keeps the matcher
structurally recursive. -/

namespace BuildPcb

structure Pin where
  electrical_type : String
  x : ℚ
  y : ℚ
  orient : ℚ
  name : String
  number : String
deriving DecidableEq, Repr

structure BBox where
  minX : ℚ
  maxX : ℚ
  minY : ℚ
  maxY : ℚ
deriving DecidableEq, Repr

structure SymbolEntry where
  id : String
  pins : List Pin
  bbox : Option BBox
  extends_ : Option String
  kicad_sym_raw : String
deriving DecidableEq, Repr

abbrev Index := List (String × SymbolEntry)

/-- Python `dict` lookup on the association-list model. -/
def dlookup (k : String) : Index → Option SymbolEntry
  | [] => none
  | p :: t => if p.1 = k then some p.2 else dlookup k t

/-- Python `d[k] = v`: replace the first binding of `k` in place, else append. -/
def dupdate (k : String) (v : SymbolEntry) : Index → Index
  | [] => [(k, v)]
  | p :: t => if p.1 = k then (k, v) :: t else p :: dupdate k v t

def keys (m : Index) : List String := m.map Prod.fst

/-- Numeric value of a digit string. -/
def natVal (cs : List Char) : Nat := cs.foldl (fun a c => a * 10 + (c.toNat - 48)) 0

/-- Python `float()` on an unsigned token drawn from the class `[-\d.]+`:
digits with at most one dot and at least one digit; otherwise `ValueError`. -/
def pyFloatCore (cs : List Char) : Option ℚ :=
  if cs.all (fun c => c.isDigit || c == '.') && decide (cs.count '.' ≤ 1) &&
      cs.any (fun c => c.isDigit) then
    some (mkRat (natVal (cs.takeWhile (fun c => c != '.')) *
        10 ^ ((cs.dropWhile (fun c => c != '.')).drop 1).length +
        natVal ((cs.dropWhile (fun c => c != '.')).drop 1))
      (10 ^ ((cs.dropWhile (fun c => c != '.')).drop 1).length))
  else none

/-- Python `float()` on a token drawn from `[-\d.]+` (optional leading minus). -/
def pyFloatL : List Char → Option ℚ
  | '-' :: rest => (pyFloatCore rest).map (fun q => -q)
  | cs => pyFloatCore cs

/-! ### A backtracking regular-expression matcher in Python preference order -/

abbrev Caps := List (Nat × List Char)

def setCap (n : Nat) (v : List Char) : Caps → Caps
  | [] => [(n, v)]
  | p :: t => if p.1 = n then (n, v) :: t else p :: setCap n v t

def getCap (n : Nat) : Caps → Option (List Char)
  | [] => none
  | p :: t => if p.1 = n then some p.2 else getCap n t

def mergeCaps (c1 c2 : Caps) : Caps := c2.foldl (fun a p => setCap p.1 p.2 a) c1

/-- Regular expressions as used by the source: literals and character classes,
concatenation, greedy and lazy star of a character class, greedy option, and
capture groups. -/
inductive RE where
  | eps : RE
  | cls (p : Char → Bool) : RE
  | seq (a b : RE) : RE
  | starCG (p : Char → Bool) : RE
  | starCL (p : Char → Bool) : RE
  | optG (r : RE) : RE
  | group (n : Nat) (r : RE) : RE

/-- Remainders after consuming 0, 1, 2, … leading characters satisfying `p`,
shortest consumption first (the preference order of a lazy star). -/
def lazyRests (p : Char → Bool) : List Char → List (List Char)
  | [] => [[]]
  | c :: cs => (c :: cs) :: (if p c then lazyRests p cs else [])

/-- All ways to match `r` against a prefix of `s`, as (captures, remainder),
enumerated in Python's backtracking preference order. -/
def matchL : RE → List Char → List (Caps × List Char)
  | .eps, s => [([], s)]
  | .cls _, [] => []
  | .cls p, c :: cs => if p c then [([], cs)] else []
  | .seq a b, s =>
    (matchL a s).flatMap (fun pr => (matchL b pr.2).map (fun qr => (mergeCaps pr.1 qr.1, qr.2)))
  | .starCG p, s => ((lazyRests p s).reverse).map (fun r => (([] : Caps), r))
  | .starCL p, s => (lazyRests p s).map (fun r => (([] : Caps), r))
  | .optG r, s => matchL r s ++ [([], s)]
  | .group n r, s =>
    (matchL r s).map (fun pr => (setCap n (s.take (s.length - pr.2.length)) pr.1, pr.2))

/-- Python `re.match`: the preferred match anchored at the start, if any. -/
def tryMatch (r : RE) (s : List Char) : Option (Caps × List Char) := (matchL r s).head?

/-- Python `re.search`: the leftmost match, trying successive start positions. -/
def searchFrom (r : RE) : List Char → Option (Caps × List Char)
  | [] => tryMatch r []
  | c :: cs =>
    match tryMatch r (c :: cs) with
    | some pr => some pr
    | none => searchFrom r cs

/-- Python `re.finditer` / `re.findall`, with a structural fuel argument:
each recursive call strictly shortens the text, so any fuel exceeding the
text length computes the true value. -/
def reMatchesAux (r : RE) : Nat → List Char → List Caps
  | 0, _ => []
  | fuel + 1, s =>
    match searchFrom r s with
    | none => []
    | some pr =>
      if pr.2.length < s.length then pr.1 :: reMatchesAux r fuel pr.2
      else
        match s with
        | [] => [pr.1]
        | _ :: t => pr.1 :: reMatchesAux r fuel t

/-- Python `re.finditer` / `re.findall`: successive non-overlapping leftmost
matches, each continuing after the end of the previous one (an empty match
advances by one character). -/
def reMatches (r : RE) (s : List Char) : List Caps := reMatchesAux r (s.length + 1) s

/-! ### The source's patterns -/

def isWs (c : Char) : Bool :=
  c == ' ' || c == '\t' || c == '\n' || c == '\r' || c == '\x0b' || c == '\x0c'

def notWs (c : Char) : Bool := !(isWs c)

def numChar (c : Char) : Bool := c == '-' || c == '.' || c.isDigit

def notQuote (c : Char) : Bool := c != '"'

def anyChar (_ : Char) : Bool := true

def lit (c : Char) : RE := RE.cls (fun d => d == c)

def reSeq (rs : List RE) : RE := rs.foldr RE.seq RE.eps

def litStr (s : String) : RE := reSeq ((s.toList).map lit)

def plusG (p : Char → Bool) : RE := RE.seq (RE.cls p) (RE.starCG p)

def wsPlus : RE := plusG isWs

def dotLazy : RE := RE.starCL anyChar

def numCap (n : Nat) : RE := RE.group n (plusG numChar)

def quotCap (n : Nat) : RE := reSeq [lit ('"'), RE.group n (plusG notQuote), lit ('"')]

/-- `\(symbol\s+"([^"]+)"` -/
def idRE : RE := reSeq [litStr ("(symbol"), wsPlus, quotCap 1]

/-- The pin pattern of the source, compiled with `re.S`:
`\(pin\s+([^\s]+)\s+[^\s]+\s*.*?\(at\s+([-\d.]+)\s+([-\d.]+)(?:\s+([-\d.]+))?\).*?\(name\s+"([^"]+)"\).*?\(number\s+"([^"]+)"` -/
def pinRE : RE := reSeq [litStr ("(pin"), wsPlus, RE.group 1 (plusG notWs), wsPlus,
  plusG notWs, RE.starCG isWs, dotLazy, litStr ("(at"), wsPlus, numCap 2, wsPlus, numCap 3,
  RE.optG (RE.seq wsPlus (numCap 4)), lit (')'), dotLazy,
  litStr ("(name"), wsPlus, quotCap 5, lit (')'), dotLazy,
  litStr ("(number"), wsPlus, quotCap 6]

/-- `\(rectangle\s+\(start\s+([-\d.]+)\s+([-\d.]+)\)\s+\(end\s+([-\d.]+)\s+([-\d.]+)\)` -/
def rectRE : RE := reSeq [litStr ("(rectangle"), wsPlus, litStr ("(start"), wsPlus, numCap 1,
  wsPlus, numCap 2, lit (')'), wsPlus, litStr ("(end"), wsPlus, numCap 3, wsPlus, numCap 4,
  lit (')')]

/-- `\(polyline\s+\(pts(.*?)\)\)` with `re.S` -/
def polyRE : RE := reSeq [litStr ("(polyline"), wsPlus, litStr ("(pts"), RE.group 1 dotLazy,
  lit (')'), lit (')')]

/-- `\(xy\s+([-\d.]+)\s+([-\d.]+)\)` -/
def xyRE : RE := reSeq [litStr ("(xy"), wsPlus, numCap 1, wsPlus, numCap 2, lit (')')]

/-- `\(extends\s+"([^"]+)"\)` -/
def extendsRE : RE := reSeq [litStr ("(extends"), wsPlus, quotCap 1, lit (')')]

/-! ### Field extraction (`parse_symbol_block`) -/

/-- One pin dict from the captures of one pin match: the y coordinate is
negated at extraction time, the rotation defaults to 0 when group 4 is
absent, and a malformed numeric token raises (`none`). -/
def mkPin (c : Caps) : Option Pin :=
  match getCap 1 c, getCap 2 c, getCap 3 c, getCap 5 c, getCap 6 c with
  | some et, some xs, some ys, some nm, some num =>
    match pyFloatL xs, pyFloatL ys with
    | some x, some y =>
      match getCap 4 c with
      | some os =>
        match pyFloatL os with
        | some o => some ⟨String.mk et, x, -y, o, String.mk nm, String.mk num⟩
        | none => none
      | none => some ⟨String.mk et, x, -y, 0, String.mk nm, String.mk num⟩
    | _, _ => none
  | _, _, _, _, _ => none

def pinsOf : List Caps → Option (List Pin)
  | [] => some []
  | c :: cs =>
    match mkPin c, pinsOf cs with
    | some p, some ps => some (p :: ps)
    | _, _ => none

def xyPairsOf : List Caps → Option (List (ℚ × ℚ))
  | [] => some []
  | c :: cs =>
    match getCap 1 c, getCap 2 c with
    | some xs, some ys =>
      match pyFloatL xs, pyFloatL ys, xyPairsOf cs with
      | some x, some y, some rest => some ((x, y) :: rest)
      | _, _, _ => none
    | _, _ => none

def xyPairs (s : List Char) : Option (List (ℚ × ℚ)) := xyPairsOf (reMatches xyRE s)

def polyPts : List Caps → Option (List (ℚ × ℚ))
  | [] => some []
  | c :: cs =>
    match getCap 1 c with
    | some inner =>
      match xyPairs inner, polyPts cs with
      | some ps, some rest => some (ps ++ rest)
      | _, _ => none
    | none => none

/-- All polyline points of a block, in source order. -/
def allPolyPts (bl : List Char) : Option (List (ℚ × ℚ)) := polyPts (reMatches polyRE bl)

def growBBox (bb : BBox) (q : ℚ × ℚ) : BBox :=
  ⟨min bb.minX q.1, max bb.maxX q.1, min bb.minY q.2, max bb.maxY q.2⟩

/-- The running min/max envelope of the points (Python starts from `±inf`, so
an empty point list yields no box). -/
def bboxOfPts : List (ℚ × ℚ) → Option BBox
  | [] => none
  | q :: rest => some (rest.foldl growBBox ⟨q.1, q.1, q.2, q.2⟩)

def capFloat (n : Nat) (c : Caps) : Option ℚ := (getCap n c).bind pyFloatL

/-- Bounding box of a block: an explicit rectangle primitive wins; otherwise
the envelope of all polyline points; otherwise absent.  The outer `Option` is
the possible `float` exception. -/
def bboxOf (bl : List Char) : Option (Option BBox) :=
  match searchFrom rectRE bl with
  | some pr =>
    match capFloat 1 pr.1, capFloat 2 pr.1, capFloat 3 pr.1, capFloat 4 pr.1 with
    | some x1, some y1, some x2, some y2 =>
      some (some ⟨min x1 x2, max x1 x2, min y1 y2, max y1 y2⟩)
    | _, _, _, _ => none
  | none => (allPolyPts bl).map bboxOfPts

/-- `parse_symbol_block(symbol_id, block)`. -/
def parse_symbol_block (symbol_id : String) (block : String) : Option SymbolEntry :=
  match pinsOf (reMatches pinRE (block.toList)), bboxOf (block.toList) with
  | some pins, some bb =>
    some { id := symbol_id, pins := pins, bbox := bb,
           extends_ := (searchFrom extendsRE (block.toList)).bind
             (fun pr => (getCap 1 pr.1).map String.mk),
           kicad_sym_raw := block }
  | _, _ => none

/-! ### The block scanner (`parse_kicad_sym`) -/

/-- The inner depth-tracking loop of `parse_kicad_sym`, started at an
occurrence of `(symbol`: returns the consumed span and the remainder.  The
span ends just after the `)` that brings the depth to 0; if the depth never
returns to 0 the span runs to end-of-input. -/
def scanLoop : List Char → Int → List Char × List Char
  | [], _ => ([], [])
  | c :: cs, d =>
    if c = '(' then
      ((c :: (scanLoop cs (d + 1)).1), (scanLoop cs (d + 1)).2)
    else if c = ')' then
      if d - 1 = 0 then ([c], cs)
      else ((c :: (scanLoop cs (d - 1)).1), (scanLoop cs (d - 1)).2)
    else
      ((c :: (scanLoop cs d).1), (scanLoop cs d).2)

theorem scanLoop_append (l : List Char) (d : Int) :
    (scanLoop l d).1 ++ (scanLoop l d).2 = l := by
  induction l generalizing d with
  | nil => rfl
  | cons c cs ih =>
    simp only [scanLoop]
    split_ifs <;> simp [ih]

theorem scanLoop_fst_ne_nil (c : Char) (cs : List Char) (d : Int) :
    (scanLoop (c :: cs) d).1 ≠ [] := by
  simp only [scanLoop]
  split_ifs <;> simp

theorem scanLoop_snd_lt (c : Char) (cs : List Char) (d : Int) :
    (scanLoop (c :: cs) d).2.length < (c :: cs).length := by
  have h := scanLoop_append (c :: cs) d
  have h2 := scanLoop_fst_ne_nil c cs d
  have := congrArg List.length h
  simp only [List.length_append] at this
  have : 0 < (scanLoop (c :: cs) d).1.length := List.length_pos.mpr h2
  omega

/-- The outer loop of `parse_kicad_sym`, with a structural fuel argument:
each step strictly shortens the text, so any fuel exceeding the text length
computes the true value. -/
def scanBlocksAux : Nat → List Char → List (List Char)
  | 0, _ => []
  | fuel + 1, l =>
    match l with
    | [] => []
    | c :: cs =>
      if ("(symbol".toList).isPrefixOf (c :: cs) then
        (scanLoop (c :: cs) 0).1 :: scanBlocksAux fuel ((scanLoop (c :: cs) 0).2)
      else scanBlocksAux fuel cs

/-- The outer loop of `parse_kicad_sym`: at each position, if the text starts
with `(symbol` consume one depth-balanced (or truncated) span and continue
after it, else advance one character. -/
def scanBlocks (l : List Char) : List (List Char) := scanBlocksAux (l.length + 1) l

/-- `re.match(r'\(symbol\s+"([^"]+)"', block)`, returning the captured id. -/
def blockId (b : List Char) : Option String :=
  (tryMatch idRE b).bind (fun pr => (getCap 1 pr.1).map String.mk)

/-- The per-block body of `parse_kicad_sym`'s loop: a block with no id is
skipped, otherwise its entry is stored under the id (replacing any previous
entry for that id). -/
def indexOfBlocks : List (List Char) → Index → Option Index
  | [], acc => some acc
  | b :: bs, acc =>
    match blockId b with
    | none => indexOfBlocks bs acc
    | some sid =>
      match parse_symbol_block sid (String.mk b) with
      | none => none
      | some e => indexOfBlocks bs (dupdate sid e acc)

/-- `parse_kicad_sym(content)`. -/
def parse_kicad_sym (content : String) : Option Index :=
  indexOfBlocks (scanBlocks (content.toList)) []

/-! ### Inheritance resolution (`resolve_inheritance`) -/

/-- The two conditional field copies of `resolve_inheritance`'s body. -/
def fill (e base : SymbolEntry) : SymbolEntry :=
  { e with pins := if e.pins = [] then base.pins else e.pins,
           bbox := if e.bbox = none then base.bbox else e.bbox }

/-- One iteration of `resolve_inheritance`'s loop, for the entry at key `k`
of the current index (`if sym["extends"] and sym["extends"] in symbols`; the
empty string is falsy in Python). -/
def resolveStep (idx : Index) (k : String) : Index :=
  match dlookup k idx with
  | none => idx
  | some sym =>
    match sym.extends_ with
    | none => idx
    | some b =>
      if b = "" then idx
      else
        match dlookup b idx with
        | none => idx
        | some base => dupdate k (fill sym base) idx

/-- `resolve_inheritance(symbols)`: one pass over the entries in insertion
order, mutating the index as it goes. -/
def resolve_inheritance (idx : Index) : Index :=
  (keys idx).foldl resolveStep idx

/-! ### Cross-file merge (`main`) -/

/-- Python `all_symbols.update(symbols)`. -/
def dictUpdateAll (m1 m2 : Index) : Index := m2.foldl (fun a p => dupdate p.1 p.2 a) m1

def buildIndexAux : List String → Index → Option Index
  | [], acc => some acc
  | c :: cs, acc =>
    match parse_kicad_sym c with
    | none => none
    | some m => buildIndexAux cs (dictUpdateAll acc m)

/-- The merged index `main` builds across the given file contents. -/
def buildIndex (contents : List String) : Option Index := buildIndexAux contents []

/-- The index `main` serializes: merged across files, then resolved. -/
def mainIndex (contents : List String) : Option Index :=
  (buildIndex contents).map resolve_inheritance

/-! ### Association-list dictionary lemmas -/

theorem dlookup_dupdate_self (k : String) (v : SymbolEntry) (m : Index) :
    dlookup k (dupdate k v m) = some v := by
  induction m with
  | nil => simp [dupdate, dlookup]
  | cons p t ih =>
    by_cases h : p.1 = k
    · simp [dupdate, h, dlookup]
    · simp [dupdate, h, dlookup, ih]

theorem dlookup_dupdate_ne (k' k : String) (v : SymbolEntry) (m : Index) (h : k' ≠ k) :
    dlookup k (dupdate k' v m) = dlookup k m := by
  induction m with
  | nil => simp [dupdate, dlookup, h]
  | cons p t ih =>
    by_cases hp : p.1 = k'
    · have : ¬ (k' = k) := h
      simp [dupdate, hp, dlookup, this]
    · simp only [dupdate, hp, if_false, dlookup]
      by_cases hk : p.1 = k
      · simp [hk]
      · simp [hk, ih]

theorem mem_keys_of_dlookup (k : String) (v : SymbolEntry) (m : Index)
    (h : dlookup k m = some v) : k ∈ keys m := by
  induction m with
  | nil => simp [dlookup] at h
  | cons p t ih =>
    by_cases hp : p.1 = k
    · simp [keys, hp.symm]
    · simp only [dlookup, hp, if_false] at h
      simp [keys]
      right
      have := ih h
      simpa [keys] using this

theorem dlookup_mem (k : String) (v : SymbolEntry) (m : Index)
    (h : dlookup k m = some v) : (k, v) ∈ m := by
  induction m with
  | nil => simp [dlookup] at h
  | cons p t ih =>
    by_cases hp : p.1 = k
    · simp only [dlookup, hp, if_true] at h
      have : p = (k, v) := by
        cases p
        simp only [Option.some.injEq] at h
        simp_all
      simp [this.symm]
    · simp only [dlookup, hp, if_false] at h
      simp [ih h]

theorem dlookup_eq_none_iff (k : String) (m : Index) :
    dlookup k m = none ↔ k ∉ keys m := by
  induction m with
  | nil => simp [dlookup, keys]
  | cons p t ih =>
    by_cases hp : p.1 = k
    · simp [dlookup, hp, keys]
    · simp only [dlookup, hp, if_false, keys, List.map_cons, List.mem_cons]
      constructor
      · intro h hmem
        rcases hmem with h1 | h1
        · exact hp h1.symm
        · have h2 := ih.mp h
          simp only [keys] at h2
          exact h2 h1
      · intro h
        refine ih.mpr ?_
        intro h1
        exact h (Or.inr (by simpa [keys] using h1))

theorem keys_dupdate_mem (k : String) (v : SymbolEntry) (m : Index) (h : k ∈ keys m) :
    keys (dupdate k v m) = keys m := by
  induction m with
  | nil => simp [keys] at h
  | cons p t ih =>
    by_cases hp : p.1 = k
    · simp [dupdate, hp, keys]
    · have ht : k ∈ keys t := by
        simp only [keys, List.map_cons, List.mem_cons] at h
        exact h.resolve_left (fun hh => hp hh.symm)
      simp only [dupdate, hp, if_false, keys, List.map_cons]
      have := ih ht
      simp only [keys] at this
      rw [this]

theorem mem_dupdate (k : String) (v : SymbolEntry) (m : Index) (q : String × SymbolEntry)
    (h : q ∈ dupdate k v m) : q = (k, v) ∨ q ∈ m := by
  induction m with
  | nil => simpa [dupdate] using h
  | cons p t ih =>
    by_cases hp : p.1 = k
    · simp only [dupdate, hp, if_true, List.mem_cons] at h
      rcases h with h | h
      · exact Or.inl h
      · exact Or.inr (List.mem_cons_of_mem _ h)
    · simp only [dupdate, hp, if_false, List.mem_cons] at h
      rcases h with h | h
      · exact Or.inr (by simp [h])
      · rcases ih h with h' | h'
        · exact Or.inl h'
        · exact Or.inr (List.mem_cons_of_mem _ h')

/-! ### Lemmas on one resolver step and on the resolver pass -/

theorem resolveStep_lookup_none (m : Index) (k : String) (h : dlookup k m = none) :
    resolveStep m k = m := by
  simp [resolveStep, h]

theorem resolveStep_ext_none (m : Index) (k : String) (e : SymbolEntry)
    (h : dlookup k m = some e) (he : e.extends_ = none) : resolveStep m k = m := by
  simp [resolveStep, h, he]

theorem resolveStep_ext_empty (m : Index) (k : String) (e : SymbolEntry)
    (h : dlookup k m = some e) (he : e.extends_ = some ("")) : resolveStep m k = m := by
  simp [resolveStep, h, he]

theorem resolveStep_base_absent (m : Index) (k b : String) (e : SymbolEntry)
    (h : dlookup k m = some e) (he : e.extends_ = some b) (hb : dlookup b m = none) :
    resolveStep m k = m := by
  by_cases hbe : b = ""
  · simp [resolveStep, h, he, hbe]
  · simp [resolveStep, h, he, hbe, hb]

theorem resolveStep_fill (m : Index) (k b : String) (e B : SymbolEntry)
    (h : dlookup k m = some e) (he : e.extends_ = some b) (hbe : b ≠ "")
    (hb : dlookup b m = some B) : resolveStep m k = dupdate k (fill e B) m := by
  simp [resolveStep, h, he, hbe, hb]

theorem keys_resolveStep (m : Index) (k : String) : keys (resolveStep m k) = keys m := by
  cases h : dlookup k m with
  | none => rw [resolveStep_lookup_none m k h]
  | some sym =>
    cases he : sym.extends_ with
    | none => rw [resolveStep_ext_none m k sym h he]
    | some b =>
      by_cases hbe : b = ""
      · rw [hbe] at he
        rw [resolveStep_ext_empty m k sym h he]
      · cases hb : dlookup b m with
        | none => rw [resolveStep_base_absent m k b sym h he hb]
        | some base =>
          rw [resolveStep_fill m k b sym base h he hbe hb]
          exact keys_dupdate_mem k _ m (mem_keys_of_dlookup k sym m h)

theorem dlookup_resolveStep_ne (m : Index) (k k' : String) (h : k ≠ k') :
    dlookup k' (resolveStep m k) = dlookup k' m := by
  cases hk : dlookup k m with
  | none => rw [resolveStep_lookup_none m k hk]
  | some sym =>
    cases he : sym.extends_ with
    | none => rw [resolveStep_ext_none m k sym hk he]
    | some b =>
      by_cases hbe : b = ""
      · rw [hbe] at he
        rw [resolveStep_ext_empty m k sym hk he]
      · cases hb : dlookup b m with
        | none => rw [resolveStep_base_absent m k b sym hk he hb]
        | some base =>
          rw [resolveStep_fill m k b sym base hk he hbe hb]
          exact dlookup_dupdate_ne k k' _ m h

theorem keys_foldl_resolveStep (ks : List String) (m : Index) :
    keys (ks.foldl resolveStep m) = keys m := by
  induction ks generalizing m with
  | nil => rfl
  | cons k ks ih => simp [List.foldl_cons, ih, keys_resolveStep]

theorem dlookup_foldl_not_mem (ks : List String) (m : Index) (k : String) (h : k ∉ ks) :
    dlookup k (ks.foldl resolveStep m) = dlookup k m := by
  induction ks generalizing m with
  | nil => rfl
  | cons k0 ks ih =>
    have hne : k0 ≠ k := fun hh => h (by simp [hh])
    have hk : k ∉ ks := fun hh => h (by simp [hh])
    simp only [List.foldl_cons]
    rw [ih _ hk, dlookup_resolveStep_ne m k0 k hne]

theorem dlookup_foldl_ext_none (ks : List String) (m : Index) (k : String) (e : SymbolEntry)
    (h : dlookup k m = some e) (he : e.extends_ = none) :
    dlookup k (ks.foldl resolveStep m) = some e := by
  induction ks generalizing m with
  | nil => exact h
  | cons k0 ks ih =>
    simp only [List.foldl_cons]
    by_cases hk : k0 = k
    · subst hk
      rw [ih _ (by rw [resolveStep_ext_none m k0 e h he]; exact h)]
    · exact ih _ (by rw [dlookup_resolveStep_ne m k0 k hk]; exact h)

theorem dlookup_foldl_ext_empty (ks : List String) (m : Index) (k : String) (e : SymbolEntry)
    (h : dlookup k m = some e) (he : e.extends_ = some ("")) :
    dlookup k (ks.foldl resolveStep m) = some e := by
  induction ks generalizing m with
  | nil => exact h
  | cons k0 ks ih =>
    simp only [List.foldl_cons]
    by_cases hk : k0 = k
    · subst hk
      rw [ih _ (by rw [resolveStep_ext_empty m k0 e h he]; exact h)]
    · exact ih _ (by rw [dlookup_resolveStep_ne m k0 k hk]; exact h)

theorem dlookup_foldl_base_absent (ks : List String) (m : Index) (k b : String)
    (e : SymbolEntry) (h : dlookup k m = some e) (he : e.extends_ = some b)
    (hb : b ∉ keys m) : dlookup k (ks.foldl resolveStep m) = some e := by
  induction ks generalizing m with
  | nil => exact h
  | cons k0 ks ih =>
    simp only [List.foldl_cons]
    have hb' : b ∉ keys (resolveStep m k0) := by rw [keys_resolveStep]; exact hb
    by_cases hk : k0 = k
    · subst hk
      have : resolveStep m k0 = m :=
        resolveStep_base_absent m k0 b e h he ((dlookup_eq_none_iff b m).mpr hb)
      rw [this] at hb' ⊢
      exact ih _ h hb'
    · exact ih _ (by rw [dlookup_resolveStep_ne m k0 k hk]; exact h) hb'

theorem dlookup_resolve_fill (m : Index) (k b : String) (e B : SymbolEntry)
    (hnd : (keys m).Nodup) (h : dlookup k m = some e) (he : e.extends_ = some b)
    (hbe : b ≠ "") (hb : dlookup b m = some B) (hBe : B.extends_ = none) :
    dlookup k (resolve_inheritance m) = some (fill e B) := by
  have hkmem : k ∈ keys m := mem_keys_of_dlookup k e m h
  obtain ⟨ks₁, ks₂, hsplit⟩ := List.append_of_mem hkmem
  have hnd' : (ks₁ ++ k :: ks₂).Nodup := hsplit ▸ hnd
  rw [List.nodup_append] at hnd'
  obtain ⟨_, h2, hdisj⟩ := hnd'
  have hk1 : k ∉ ks₁ := fun hh => hdisj hh (by simp)
  have hk2 : k ∉ ks₂ := (List.nodup_cons.mp h2).1
  unfold resolve_inheritance
  rw [hsplit, List.foldl_append, List.foldl_cons]
  have hm1k : dlookup k (ks₁.foldl resolveStep m) = some e := by
    rw [dlookup_foldl_not_mem ks₁ m k hk1]
    exact h
  have hm1b : dlookup b (ks₁.foldl resolveStep m) = some B :=
    dlookup_foldl_ext_none ks₁ m b B hb hBe
  rw [resolveStep_fill _ k b e B hm1k he hbe hm1b]
  rw [dlookup_foldl_not_mem ks₂ _ k hk2]
  exact dlookup_dupdate_self k (fill e B) _

theorem fill_extends (e B : SymbolEntry) : (fill e B).extends_ = e.extends_ := rfl

theorem fill_fill (e B : SymbolEntry) : fill (fill e B) B = fill e B := by
  cases e with
  | mk i p bb ex raw =>
    cases B with
    | mk i' p' bb' ex' raw' =>
      simp only [fill]
      by_cases hp : p = [] <;> by_cases hp' : p' = [] <;>
        by_cases hb : bb = none <;> by_cases hb' : bb' = none <;>
          simp_all

/-! ### Balance of the scanner's depth loop -/

theorem scanLoop_bal (l : List Char) : ∀ d : Int, 1 ≤ d →
    (d + ((scanLoop l d).1.count '(' : Int) - ((scanLoop l d).1.count ')' : Int) = 0) ∨
    ((scanLoop l d).2 = [] ∧
      1 ≤ d + ((scanLoop l d).1.count '(' : Int) - ((scanLoop l d).1.count ')' : Int)) := by
  induction l with
  | nil =>
    intro d hd
    right
    refine ⟨rfl, ?_⟩
    simp only [scanLoop, List.count_nil]
    omega
  | cons c cs ih =>
    intro d hd
    by_cases hc : c = '('
    · simp only [scanLoop, if_pos hc]
      have hcc : ('(' == '(') = true := by decide
      have hcc2 : ('(' == ')') = false := by decide
      rcases ih (d + 1) (by omega) with h | ⟨h1, h2⟩
      · left
        subst hc
        simp only [List.count_cons, hcc, hcc2, if_true, if_false]
        push_cast
        omega
      · right
        subst hc
        refine ⟨h1, ?_⟩
        simp only [List.count_cons, hcc, hcc2, if_true, if_false]
        push_cast
        omega
    · by_cases hc2 : c = ')'
      · by_cases hd1 : d - 1 = 0
        · simp only [scanLoop, if_neg hc, if_pos hc2, if_pos hd1]
          left
          subst hc2
          have hcc : (')' == '(') = false := by decide
          have hcc2 : (')' == ')') = true := by decide
          simp only [List.count_cons, List.count_nil, hcc, hcc2, if_true, if_false]
          push_cast
          omega
        · simp only [scanLoop, if_neg hc, if_pos hc2, if_neg hd1]
          have hcc : (')' == '(') = false := by decide
          have hcc2 : (')' == ')') = true := by decide
          rcases ih (d - 1) (by omega) with h | ⟨h1, h2⟩
          · left
            subst hc2
            simp only [List.count_cons, hcc, hcc2, if_true, if_false]
            push_cast
            omega
          · right
            subst hc2
            refine ⟨h1, ?_⟩
            simp only [List.count_cons, hcc, hcc2, if_true, if_false]
            push_cast
            omega
      · simp only [scanLoop, if_neg hc, if_neg hc2]
        have hcc : (c == '(') = false := by simp [hc]
        have hcc2 : (c == ')') = false := by simp [hc2]
        rcases ih d hd with h | ⟨h1, h2⟩
        · left
          simp only [List.count_cons, hcc, hcc2, if_false]
          push_cast
          omega
        · right
          refine ⟨h1, ?_⟩
          simp only [List.count_cons, hcc, hcc2, if_false]
          push_cast
          omega

theorem scanBlocksAux_nil (fuel : Nat) : scanBlocksAux fuel [] = [] := by
  cases fuel <;> rfl

theorem head_of_symbol_prefix (c : Char) (cs : List Char)
    (h : ("(symbol".toList).isPrefixOf (c :: cs)) : c = '(' := by
  have hh : "(symbol".toList = '(' :: "symbol".toList := rfl
  rw [hh] at h
  simp only [List.isPrefixOf, Bool.and_eq_true, beq_iff_eq] at h
  exact h.1.symm

theorem scanLoop_open (cs : List Char) :
    scanLoop ('(' :: cs) 0 = ('(' :: (scanLoop cs 1).1, (scanLoop cs 1).2) := by
  simp [scanLoop]

/-- Every block produced by the scanner loop (at any fuel) has at most as many
closing as opening parentheses, and every block other than a final truncated
one is exactly balanced. -/
theorem scanBlocksAux_counts (fuel : Nat) : ∀ l : List Char,
    (∀ b ∈ (scanBlocksAux fuel l).dropLast, b.count '(' = b.count ')') ∧
    (∀ b ∈ scanBlocksAux fuel l, b.count ')' ≤ b.count '(') := by
  induction fuel with
  | zero =>
    intro l
    simp [scanBlocksAux]
  | succ n ih =>
    intro l
    cases l with
    | nil => simp [scanBlocksAux]
    | cons c cs =>
      by_cases hpre : ("(symbol".toList).isPrefixOf (c :: cs)
      · have hc : c = '(' := head_of_symbol_prefix c cs hpre
        simp only [scanBlocksAux, if_pos hpre]
        subst hc
        rw [scanLoop_open cs]
        have hcc : ('(' == '(') = true := by decide
        have hcc2 : ('(' == ')') = false := by decide
        rcases scanLoop_bal cs 1 (by omega) with h | ⟨h1, h2⟩
        · constructor
          · intro b hb
            rcases hbs : scanBlocksAux n (scanLoop cs 1).2 with _ | ⟨b0, bs0⟩
            · rw [hbs] at hb
              simp at hb
            · rw [hbs] at hb
              rw [List.dropLast_cons₂] at hb
              rcases List.mem_cons.mp hb with hb' | hb'
              · subst hb'
                simp only [List.count_cons]
                simp
                omega
              · have := (ih ((scanLoop cs 1).2)).1 b
                rw [hbs] at this
                exact this hb'
          · intro b hb
            rcases List.mem_cons.mp hb with hb' | hb'
            · subst hb'
              simp only [List.count_cons]
              simp
              omega
            · exact (ih ((scanLoop cs 1).2)).2 b hb'
        · rw [h1, scanBlocksAux_nil]
          constructor
          · intro b hb
            simp at hb
          · intro b hb
            rcases List.mem_cons.mp hb with hb' | hb'
            · subst hb'
              simp only [List.count_cons]
              simp
              omega
            · simp at hb'
      · simp only [scanBlocksAux, if_neg hpre]
        exact ih cs

theorem scanBlocksAux_succ_cons (fuel : Nat) (c : Char) (cs : List Char) :
    scanBlocksAux (fuel + 1) (c :: cs) =
      if ("(symbol".toList).isPrefixOf (c :: cs) then
        (scanLoop (c :: cs) 0).1 :: scanBlocksAux fuel ((scanLoop (c :: cs) 0).2)
      else scanBlocksAux fuel cs := rfl

/-- When the depth loop started at the first `(symbol` runs to end-of-input,
the scanner emits exactly that truncated span. -/
theorem scanBlocks_single (cs : List Char) (hpre : ("(symbol".toList).isPrefixOf cs)
    (hrest : (scanLoop cs 0).2 = []) : scanBlocks cs = [(scanLoop cs 0).1] := by
  cases cs with
  | nil =>
    revert hpre
    decide
  | cons c cs' =>
    show scanBlocksAux ((c :: cs').length + 1) (c :: cs') = _
    rw [List.length_cons, scanBlocksAux_succ_cons, if_pos hpre, hrest, scanBlocksAux_nil]

/-! ### Field-extraction lemmas -/

theorem pinsOf_get (ms : List Caps) (ps : List Pin) (h : pinsOf ms = some ps) :
    ∀ (i : Nat) (c : Caps), ms[i]? = some c → ∃ p, ps[i]? = some p ∧ mkPin c = some p := by
  induction ms generalizing ps with
  | nil =>
    intro i c hc
    simp at hc
  | cons c0 ms ih =>
    intro i c hc
    cases hm : mkPin c0 with
    | none => simp [pinsOf, hm] at h
    | some p0 =>
      cases ht : pinsOf ms with
      | none => simp [pinsOf, hm, ht] at h
      | some ps' =>
        have hps : ps = p0 :: ps' := by
          simp [pinsOf, hm, ht] at h
          exact h.symm
        subst hps
        cases i with
        | zero =>
          simp only [List.getElem?_cons_zero, Option.some.injEq] at hc
          subst hc
          exact ⟨p0, by simp, hm⟩
        | succ n =>
          simp only [List.getElem?_cons_succ] at hc
          obtain ⟨p, hp1, hp2⟩ := ih ps' ht n c hc
          exact ⟨p, by simpa using hp1, hp2⟩

theorem mkPin_xy (c : Caps) (p : Pin) (xs ys : List Char) (xv yv : ℚ)
    (h : mkPin c = some p) (h2 : getCap 2 c = some xs) (h3 : getCap 3 c = some ys)
    (hx : pyFloatL xs = some xv) (hy : pyFloatL ys = some yv) :
    p.x = xv ∧ p.y = -yv := by
  cases h1 : getCap 1 c with
  | none => simp [mkPin, h1] at h
  | some et =>
    cases h5 : getCap 5 c with
    | none => simp [mkPin, h1, h2, h3, h5] at h
    | some nm =>
      cases h6 : getCap 6 c with
      | none => simp [mkPin, h1, h2, h3, h5, h6] at h
      | some num =>
        cases h4 : getCap 4 c with
        | none =>
          simp [mkPin, h1, h2, h3, h5, h6, h4, hx, hy] at h
          rw [← h]
          exact ⟨rfl, rfl⟩
        | some os =>
          cases ho : pyFloatL os with
          | none => simp [mkPin, h1, h2, h3, h5, h6, h4, hx, hy, ho] at h
          | some ov =>
            simp [mkPin, h1, h2, h3, h5, h6, h4, hx, hy, ho] at h
            rw [← h]
            exact ⟨rfl, rfl⟩

theorem parse_symbol_block_eq (sid block : String) (e : SymbolEntry)
    (h : parse_symbol_block sid block = some e) :
    ∃ pins bb, pinsOf (reMatches pinRE (block.toList)) = some pins ∧
      bboxOf (block.toList) = some bb ∧
      e = { id := sid, pins := pins, bbox := bb,
            extends_ := (searchFrom extendsRE (block.toList)).bind
              (fun pr => (getCap 1 pr.1).map String.mk),
            kicad_sym_raw := block } := by
  unfold parse_symbol_block at h
  cases hp : pinsOf (reMatches pinRE (block.toList)) with
  | none =>
    rw [hp] at h
    simp at h
  | some pins =>
    cases hb : bboxOf (block.toList) with
    | none =>
      rw [hp, hb] at h
      simp at h
    | some bb =>
      rw [hp, hb] at h
      simp only [Option.some.injEq] at h
      exact ⟨pins, bb, rfl, rfl, h.symm⟩

theorem bboxOf_rect (bl : List Char) (caps : Caps) (rest : List Char)
    (x1 y1 x2 y2 : ℚ) (t1 t2 t3 t4 : List Char)
    (hs : searchFrom rectRE bl = some (caps, rest))
    (h1 : getCap 1 caps = some t1) (f1 : pyFloatL t1 = some x1)
    (h2 : getCap 2 caps = some t2) (f2 : pyFloatL t2 = some y1)
    (h3 : getCap 3 caps = some t3) (f3 : pyFloatL t3 = some x2)
    (h4 : getCap 4 caps = some t4) (f4 : pyFloatL t4 = some y2) :
    bboxOf bl = some (some ⟨min x1 x2, max x1 x2, min y1 y2, max y1 y2⟩) := by
  unfold bboxOf
  rw [hs]
  simp [capFloat, h1, h2, h3, h4, f1, f2, f3, f4]

/-! ### The bounding-box invariant -/

def bboxInv (bb : BBox) : Prop := bb.minX ≤ bb.maxX ∧ bb.minY ≤ bb.maxY

theorem growBBox_inv (bb : BBox) (q : ℚ × ℚ) (h : bboxInv bb) : bboxInv (growBBox bb q) := by
  obtain ⟨h1, h2⟩ := h
  exact ⟨le_trans (min_le_left _ _) (le_trans h1 (le_max_left _ _)),
    le_trans (min_le_left _ _) (le_trans h2 (le_max_left _ _))⟩

theorem foldl_growBBox_inv (pts : List (ℚ × ℚ)) (bb : BBox) (h : bboxInv bb) :
    bboxInv (pts.foldl growBBox bb) := by
  induction pts generalizing bb with
  | nil => exact h
  | cons q pts ih => exact ih _ (growBBox_inv bb q h)

theorem bboxOfPts_inv (pts : List (ℚ × ℚ)) (bb : BBox) (h : bboxOfPts pts = some bb) :
    bboxInv bb := by
  cases pts with
  | nil => simp [bboxOfPts] at h
  | cons q rest =>
    simp only [bboxOfPts, Option.some.injEq] at h
    subst h
    exact foldl_growBBox_inv rest _ ⟨le_refl _, le_refl _⟩

theorem bboxOf_inv (bl : List Char) (ob : Option BBox) (bb : BBox)
    (h : bboxOf bl = some ob) (hb : ob = some bb) : bboxInv bb := by
  subst hb
  unfold bboxOf at h
  cases hs : searchFrom rectRE bl with
  | some pr =>
    simp only [hs] at h
    cases c1 : capFloat 1 pr.1 with
    | none => simp [c1] at h
    | some x1 =>
      cases c2 : capFloat 2 pr.1 with
      | none => simp [c1, c2] at h
      | some y1 =>
        cases c3 : capFloat 3 pr.1 with
        | none => simp [c1, c2, c3] at h
        | some x2 =>
          cases c4 : capFloat 4 pr.1 with
          | none => simp [c1, c2, c3, c4] at h
          | some y2 =>
            simp only [c1, c2, c3, c4, Option.some.injEq] at h
            rw [← h]
            exact ⟨min_le_max, min_le_max⟩
  | none =>
    simp only [hs] at h
    cases hp : allPolyPts bl with
    | none => rw [hp] at h; simp at h
    | some pts =>
      rw [hp] at h
      simp only [Option.map_some', Option.some.injEq] at h
      exact bboxOfPts_inv pts bb h

theorem resolveStep_bbox_inv (m : Index) (k : String)
    (h : ∀ p ∈ m, ∀ bb, (Prod.snd p).bbox = some bb → bboxInv bb) :
    ∀ p ∈ resolveStep m k, ∀ bb, (Prod.snd p).bbox = some bb → bboxInv bb := by
  cases hk : dlookup k m with
  | none => rw [resolveStep_lookup_none m k hk]; exact h
  | some sym =>
    cases he : sym.extends_ with
    | none => rw [resolveStep_ext_none m k sym hk he]; exact h
    | some b =>
      by_cases hbe : b = ""
      · rw [hbe] at he
        rw [resolveStep_ext_empty m k sym hk he]
        exact h
      · cases hb : dlookup b m with
        | none => rw [resolveStep_base_absent m k b sym hk he hb]; exact h
        | some base =>
          rw [resolveStep_fill m k b sym base hk he hbe hb]
          intro p hp bb hbb
          rcases mem_dupdate k (fill sym base) m p hp with h' | h'
          · subst h'
            simp only [fill] at hbb
            by_cases hsb : sym.bbox = none
            · rw [if_pos hsb] at hbb
              exact h (b, base) (dlookup_mem b base m hb) bb hbb
            · rw [if_neg hsb] at hbb
              exact h (k, sym) (dlookup_mem k sym m hk) bb hbb
          · exact h p h' bb hbb

theorem foldl_resolveStep_bbox_inv (ks : List String) (m : Index)
    (h : ∀ p ∈ m, ∀ bb, (Prod.snd p).bbox = some bb → bboxInv bb) :
    ∀ p ∈ ks.foldl resolveStep m, ∀ bb, (Prod.snd p).bbox = some bb → bboxInv bb := by
  induction ks generalizing m with
  | nil => exact h
  | cons k ks ih => exact ih _ (resolveStep_bbox_inv m k h)

/-! ### Index-building lemmas -/

theorem parse_symbol_block_id (sid block : String) (e : SymbolEntry)
    (h : parse_symbol_block sid block = some e) : e.id = sid := by
  obtain ⟨pins, bb, _, _, he⟩ := parse_symbol_block_eq sid block e h
  rw [he]

theorem indexOfBlocks_id (bs : List (List Char)) (acc m : Index)
    (h : indexOfBlocks bs acc = some m) (hacc : ∀ p ∈ acc, (Prod.snd p).id = Prod.fst p) :
    ∀ p ∈ m, (Prod.snd p).id = Prod.fst p := by
  induction bs generalizing acc with
  | nil =>
    simp only [indexOfBlocks, Option.some.injEq] at h
    subst h
    exact hacc
  | cons b bs ih =>
    cases hid : blockId b with
    | none =>
      simp only [indexOfBlocks, hid] at h
      exact ih acc h hacc
    | some sid =>
      cases hp : parse_symbol_block sid (String.mk b) with
      | none => simp [indexOfBlocks, hid, hp] at h
      | some e =>
        simp only [indexOfBlocks, hid, hp] at h
        refine ih _ h ?_
        intro p hp'
        rcases mem_dupdate sid e acc p hp' with h' | h'
        · subst h'
          exact parse_symbol_block_id sid (String.mk b) e hp
        · exact hacc p h'

theorem keys_dupdate_not_mem (k : String) (v : SymbolEntry) (m : Index) (h : k ∉ keys m) :
    keys (dupdate k v m) = keys m ++ [k] := by
  induction m with
  | nil => simp [dupdate, keys]
  | cons p t ih =>
    have hp : p.1 ≠ k := fun hh => h (by simp [keys, hh])
    have ht : k ∉ keys t := fun hh => h (List.mem_cons_of_mem p.1 hh)
    simp only [dupdate, hp, if_false, keys, List.map_cons, List.cons_append]
    have := ih ht
    simp only [keys] at this
    rw [this]

theorem nodup_keys_dupdate (k : String) (v : SymbolEntry) (m : Index)
    (h : (keys m).Nodup) : (keys (dupdate k v m)).Nodup := by
  by_cases hk : k ∈ keys m
  · rw [keys_dupdate_mem k v m hk]
    exact h
  · rw [keys_dupdate_not_mem k v m hk]
    rw [List.nodup_append]
    refine ⟨h, List.nodup_singleton k, ?_⟩
    intro a ha hak
    simp only [List.mem_singleton] at hak
    subst hak
    exact hk ha

theorem indexOfBlocks_nodup (bs : List (List Char)) (acc m : Index)
    (h : indexOfBlocks bs acc = some m) (hacc : (keys acc).Nodup) : (keys m).Nodup := by
  induction bs generalizing acc with
  | nil =>
    simp only [indexOfBlocks, Option.some.injEq] at h
    subst h
    exact hacc
  | cons b bs ih =>
    cases hid : blockId b with
    | none =>
      simp only [indexOfBlocks, hid] at h
      exact ih acc h hacc
    | some sid =>
      cases hp : parse_symbol_block sid (String.mk b) with
      | none => simp [indexOfBlocks, hid, hp] at h
      | some e =>
        simp only [indexOfBlocks, hid, hp] at h
        exact ih _ h (nodup_keys_dupdate sid e acc hacc)

theorem indexOfBlocks_no_key (bs : List (List Char)) (acc m : Index) (k : String)
    (h : indexOfBlocks bs acc = some m) (hb : ∀ b ∈ bs, blockId b ≠ some k) :
    dlookup k m = dlookup k acc := by
  induction bs generalizing acc with
  | nil =>
    simp only [indexOfBlocks, Option.some.injEq] at h
    subst h
    rfl
  | cons b bs ih =>
    cases hid : blockId b with
    | none =>
      simp only [indexOfBlocks, hid] at h
      exact ih acc h (fun b' hb' => hb b' (List.mem_cons_of_mem _ hb'))
    | some sid =>
      have hsid : sid ≠ k := by
        intro hh
        exact hb b (by simp) (by rw [hid, hh])
      cases hp : parse_symbol_block sid (String.mk b) with
      | none => simp [indexOfBlocks, hid, hp] at h
      | some e =>
        simp only [indexOfBlocks, hid, hp] at h
        rw [ih _ h (fun b' hb' => hb b' (List.mem_cons_of_mem _ hb'))]
        exact dlookup_dupdate_ne sid k e acc hsid

theorem indexOfBlocks_last (bs : List (List Char)) :
    ∀ (j : Nat) (acc m : Index) (b : List Char) (sid : String) (e : SymbolEntry),
    indexOfBlocks bs acc = some m → bs[j]? = some b → blockId b = some sid →
    parse_symbol_block sid (String.mk b) = some e →
    (∀ (j' : Nat) (b' : List Char), j < j' → bs[j']? = some b' → blockId b' ≠ some sid) →
    dlookup sid m = some e := by
  induction bs with
  | nil =>
    intro j acc m b sid e _ hj
    simp at hj
  | cons b0 bs ih =>
    intro j acc m b sid e h hj hid hp hlater
    cases j with
    | zero =>
      simp only [List.getElem?_cons_zero, Option.some.injEq] at hj
      subst hj
      simp only [indexOfBlocks, hid, hp] at h
      have hnone : ∀ b' ∈ bs, blockId b' ≠ some sid := by
        intro b' hb'
        obtain ⟨j', hj'⟩ := List.getElem?_of_mem hb'
        exact hlater (j' + 1) b' (by omega) (by simpa using hj')
      rw [indexOfBlocks_no_key bs _ m sid h hnone]
      exact dlookup_dupdate_self sid e _
    | succ n =>
      simp only [List.getElem?_cons_succ] at hj
      have hlater' : ∀ (j' : Nat) (b' : List Char), n < j' → bs[j']? = some b' →
          blockId b' ≠ some sid := by
        intro j' b' hlt hj'
        exact hlater (j' + 1) b' (by omega) (by simpa using hj')
      cases hid0 : blockId b0 with
      | none =>
        simp only [indexOfBlocks, hid0] at h
        exact ih n acc m b sid e h hj hid hp hlater'
      | some sid0 =>
        cases hp0 : parse_symbol_block sid0 (String.mk b0) with
        | none => simp [indexOfBlocks, hid0, hp0] at h
        | some e0 =>
          simp only [indexOfBlocks, hid0, hp0] at h
          exact ih n _ m b sid e h hj hid hp hlater'

/-! ### Cross-file merge lemmas -/

theorem dictUpdateAll_cons (m : Index) (p : String × SymbolEntry) (t : Index) :
    dictUpdateAll m (p :: t) = dictUpdateAll (dupdate p.1 p.2 m) t := rfl

theorem dlookup_dictUpdateAll_not_mem (t : Index) (m : Index) (k : String)
    (h : k ∉ keys t) : dlookup k (dictUpdateAll m t) = dlookup k m := by
  induction t generalizing m with
  | nil => rfl
  | cons p t ih =>
    have hne : p.1 ≠ k := fun hh => h (by simp [keys, hh])
    have ht : k ∉ keys t := fun hh => h (List.mem_cons_of_mem p.1 hh)
    rw [dictUpdateAll_cons, ih _ ht]
    exact dlookup_dupdate_ne p.1 k p.2 m hne

theorem dlookup_dictUpdateAll (t m : Index) (k : String) (e : SymbolEntry)
    (hnd : (keys t).Nodup) (h : dlookup k t = some e) :
    dlookup k (dictUpdateAll m t) = some e := by
  induction t generalizing m with
  | nil => simp [dlookup] at h
  | cons p t ih =>
    have hnd' : p.1 ∉ keys t ∧ (keys t).Nodup := by
      have : (p.1 :: keys t).Nodup := by simpa [keys] using hnd
      exact List.nodup_cons.mp this
    rw [dictUpdateAll_cons]
    by_cases hp : p.1 = k
    · have he : p.2 = e := by
        simp only [dlookup, hp, if_true, Option.some.injEq] at h
        exact h
      have hk : k ∉ keys t := hp ▸ hnd'.1
      rw [dlookup_dictUpdateAll_not_mem t _ k hk]
      subst hp
      rw [he]
      exact dlookup_dupdate_self p.1 e m
    · have h' : dlookup k t = some e := by simpa [dlookup, hp] using h
      exact ih _ hnd'.2 h'

/-! ### Wrappers of the fold lemmas at the resolver pass -/

theorem keys_resolve (m : Index) : keys (resolve_inheritance m) = keys m :=
  keys_foldl_resolveStep (keys m) m

theorem dlookup_resolve_ext_none (m : Index) (k : String) (e : SymbolEntry)
    (h : dlookup k m = some e) (he : e.extends_ = none) :
    dlookup k (resolve_inheritance m) = some e :=
  dlookup_foldl_ext_none (keys m) m k e h he

theorem dlookup_resolve_ext_empty (m : Index) (k : String) (e : SymbolEntry)
    (h : dlookup k m = some e) (he : e.extends_ = some ("")) :
    dlookup k (resolve_inheritance m) = some e :=
  dlookup_foldl_ext_empty (keys m) m k e h he

theorem dlookup_resolve_base_absent (m : Index) (k b : String) (e : SymbolEntry)
    (h : dlookup k m = some e) (he : e.extends_ = some b)
    (hb : dlookup b m = none) : dlookup k (resolve_inheritance m) = some e :=
  dlookup_foldl_base_absent (keys m) m k b e h he ((dlookup_eq_none_iff b m).mp hb)

theorem parse_kicad_sym_nodup (c : String) (m : Index)
    (h : parse_kicad_sym c = some m) : (keys m).Nodup :=
  indexOfBlocks_nodup (scanBlocks (c.toList)) [] m h (by simp [keys])

/-! ### Concrete sample data used by witnesses and counterexamples -/

def pinSample : Pin := { electrical_type := "passive", x := 0, y := 0, orient := 0,
                         name := "1", number := "1" }

def entC : SymbolEntry := { id := "C", pins := [pinSample], bbox := none, extends_ := none,
                            kicad_sym_raw := "" }

def entB : SymbolEntry := { id := "B", pins := [], bbox := none, extends_ := some ("C"),
                            kicad_sym_raw := "" }

def entA : SymbolEntry := { id := "A", pins := [], bbox := none, extends_ := some ("B"),
                            kicad_sym_raw := "" }

def entBase : SymbolEntry := { id := "B", pins := [pinSample], bbox := none, extends_ := none,
                               kicad_sym_raw := "" }

def entR : SymbolEntry := { id := "R", pins := [], bbox := some ⟨0, 1, 0, 1⟩, extends_ := none,
                            kicad_sym_raw := "" }

/-- Base-first iteration order: C, then B (extends C), then A (extends B). -/
def idxCBA : Index := [("C", entC), ("B", entB), ("A", entA)]

/-- Derived-first iteration order: A (extends B), then B (extends C), then C. -/
def idxABC : Index := [("A", entA), ("B", entB), ("C", entC)]

/-- A derived entry followed by its extends-free base. -/
def idxAB : Index := [("A", entA), ("B", entBase)]

/-- A single entry whose extends target is absent from the index. -/
def idxA : Index := [("A", entA)]

def idxR : Index := [("R", entR)]

def blkPin : String := "(symbol \"P1\" (pin passive line (at 1 2) (name \"P\") (number \"7\")))"

def blkRect : String := "(symbol \"R\" (rectangle (start 5 1) (end 2 3)))"

/-! ### The claims -/

/-- C1, counterexample to the claim as stated: on the input `(symbol "A" (`
the depth never returns to 0, yet the scan does not drop the block — the
resulting index contains an entry `"A"` derived from the truncated span. -/
theorem claim_C1_counterexample :
    parse_kicad_sym ("(symbol \"A\" (") ≠ none ∧
    ((parse_kicad_sym ("(symbol \"A\" (")).getD []).map Prod.fst = ["A"] := by
  decide

/-- C1 (amended): an unterminated block (depth never back to 0 before
end-of-input) is **not** dropped: the scanner emits the truncated span from
the `(symbol` marker to end-of-input, and when that span carries an
identifier and its fields extract without error, an entry derived from it
appears in the resulting index. -/
theorem claim_C1 (cs : List Char) (sid : String) (e : SymbolEntry)
    (hpre : ("(symbol".toList).isPrefixOf cs)
    (hrest : (scanLoop cs 0).2 = [])
    (_hunb : cs.count ')' < cs.count '(')
    (hid : blockId cs = some sid)
    (hp : parse_symbol_block sid (String.mk cs) = some e) :
    parse_kicad_sym (String.mk cs) = some [(sid, e)] := by
  have h2 := scanLoop_append cs 0
  rw [hrest, List.append_nil] at h2
  have hsb : scanBlocks cs = [cs] := by
    have h1 := scanBlocks_single cs hpre hrest
    rw [h2] at h1
    exact h1
  unfold parse_kicad_sym
  rw [show (String.mk cs).toList = cs from rfl, hsb]
  simp only [indexOfBlocks, hid, hp]
  rfl

theorem claim_C1_witness :
    parse_kicad_sym ("(symbol \"A\" (") =
      some [("A", { id := "A", pins := [], bbox := none, extends_ := none,
                    kicad_sym_raw := "(symbol \"A\" (" })] :=
  claim_C1 (("(symbol \"A\" (").toList) ("A")
    { id := "A", pins := [], bbox := none, extends_ := none,
      kicad_sym_raw := "(symbol \"A\" (" }
    (by decide) (by decide) (by decide) (by decide) (by decide)

/-- C2, counterexample to the claim as stated: the truncated block emitted on
the unterminated input `(symbol "A" (` has two opening and no closing
parentheses. -/
theorem claim_C2_counterexample :
    ¬ (∀ b ∈ scanBlocks (("(symbol \"A\" (").toList), b.count '(' = b.count ')') := by
  decide

/-- C2 (amended): every block emitted by the scanner except possibly the last
has balanced delimiters; the last block can be an unterminated span truncated
at end-of-input, which has at most as many closing as opening parentheses
(strictly fewer when unterminated). -/
theorem claim_C2 (cs : List Char) :
    (∀ b ∈ (scanBlocks cs).dropLast, b.count '(' = b.count ')') ∧
    (∀ b ∈ scanBlocks cs, b.count ')' ≤ b.count '(') :=
  scanBlocksAux_counts (cs.length + 1) cs

theorem claim_C2_witness :
    (("(symbol \"A\")").toList).count '(' = (("(symbol \"A\")").toList).count ')' :=
  (claim_C2 (("(symbol \"A\")x(symbol \"B\")").toList)).1 (("(symbol \"A\")").toList)
    (by decide)

/-- C3, counterexample to the claim as stated: with iteration order C, B, A
(base entries first), the in-place pass first fills B from C and then fills A
from the already-updated B, so A ends with C's pins even though A's base B
started with an empty pin list — second-level propagation does occur for this
visit order. -/
theorem claim_C3_counterexample :
    dlookup ("A") (resolve_inheritance idxCBA) =
      some { id := "A", pins := [pinSample], bbox := none, extends_ := some ("B"),
             kicad_sym_raw := "" } ∧
    entA.pins = [] ∧ entB.pins = [] ∧ entC.pins = [pinSample] := by
  decide

/-- C3 (amended): the single pass works on the current, mutating snapshot, so
second-level propagation depends on visit order.  When a derived entry
precedes its base in the iteration order, it receives at most the base's
original pins (its own or its base's pre-pass pin list), never the pins of
the base's own base; when the base is visited first, second-level propagation
can occur (see the counterexample). -/
theorem claim_C3 (idx : Index) (ks₁ ks₂ : List String) (a b : String)
    (A B e' : SymbolEntry)
    (hnd : (keys idx).Nodup)
    (hsplit : keys idx = ks₁ ++ a :: ks₂)
    (hbmem : b ∈ ks₂)
    (hA : dlookup a idx = some A)
    (hB : dlookup b idx = some B)
    (hext : A.extends_ = some b)
    (hres : dlookup a (resolve_inheritance idx) = some e') :
    e'.pins = A.pins ∨ e'.pins = B.pins := by
  have hnd' : (ks₁ ++ a :: ks₂).Nodup := hsplit ▸ hnd
  rw [List.nodup_append] at hnd'
  obtain ⟨_, hnd2, hdisj⟩ := hnd'
  have ha1 : a ∉ ks₁ := fun hh => hdisj hh (by simp)
  have ha2 : a ∉ ks₂ := (List.nodup_cons.mp hnd2).1
  have hb1 : b ∉ ks₁ := fun hh => hdisj hh (by simp [hbmem])
  unfold resolve_inheritance at hres
  rw [hsplit, List.foldl_append, List.foldl_cons] at hres
  set m₁ := ks₁.foldl resolveStep idx with hm₁
  have hm1a : dlookup a m₁ = some A := by
    rw [hm₁, dlookup_foldl_not_mem ks₁ idx a ha1]
    exact hA
  have hm1b : dlookup b m₁ = some B := by
    rw [hm₁, dlookup_foldl_not_mem ks₁ idx b hb1]
    exact hB
  by_cases hbe : b = ""
  · rw [hbe] at hext
    rw [resolveStep_ext_empty m₁ a A hm1a hext] at hres
    rw [dlookup_foldl_not_mem ks₂ m₁ a ha2, hm1a] at hres
    injection hres with hres
    left
    rw [← hres]
  · rw [resolveStep_fill m₁ a b A B hm1a hext hbe hm1b] at hres
    rw [dlookup_foldl_not_mem ks₂ _ a ha2, dlookup_dupdate_self a (fill A B) m₁] at hres
    injection hres with hres
    rw [← hres]
    simp only [fill]
    by_cases hp : A.pins = []
    · right
      simp [hp]
    · left
      simp [hp]

theorem claim_C3_witness :
    ({ id := "A", pins := [pinSample], bbox := none, extends_ := some ("B"),
       kicad_sym_raw := "" } : SymbolEntry).pins = entA.pins ∨
    ({ id := "A", pins := [pinSample], bbox := none, extends_ := some ("B"),
       kicad_sym_raw := "" } : SymbolEntry).pins = entBase.pins :=
  claim_C3 idxAB [] (["B"]) ("A") ("B") entA entBase
    { id := "A", pins := [pinSample], bbox := none, extends_ := some ("B"),
      kicad_sym_raw := "" }
    (by decide) (by decide) (by decide) (by decide) (by decide) (by decide) (by decide)

/-- C4, counterexample to the claim as stated: on the derived-first index
A → B → C a first pass leaves A empty (B was still empty when A was visited)
but fills B from C; a second pass then fills A from the now-filled B, so
running the resolver twice differs from running it once. -/
theorem claim_C4_counterexample :
    resolve_inheritance (resolve_inheritance idxABC) ≠ resolve_inheritance idxABC := by
  decide

/-- C4 (amended): the resolver is idempotent provided no entry that serves as
an extends-target of another entry itself declares an extends reference (no
two-level inheritance chains); in general a second pass can propagate one
further level, as the counterexample shows. -/
theorem claim_C4 (idx : Index)
    (hnd : (keys idx).Nodup)
    (hH : ∀ p ∈ idx, ∀ q ∈ idx, (Prod.snd p).extends_ = some (Prod.fst q) →
      (Prod.snd q).extends_ = none)
    (k : String) :
    dlookup k (resolve_inheritance (resolve_inheritance idx)) =
      dlookup k (resolve_inheritance idx) := by
  cases he : dlookup k idx with
  | none =>
    have hk : k ∉ keys idx := (dlookup_eq_none_iff k idx).mp he
    have h1 : dlookup k (resolve_inheritance idx) = none := by
      rw [dlookup_eq_none_iff, keys_resolve]
      exact hk
    have h2 : dlookup k (resolve_inheritance (resolve_inheritance idx)) = none := by
      rw [dlookup_eq_none_iff, keys_resolve, keys_resolve]
      exact hk
    rw [h1, h2]
  | some e =>
    cases hext : e.extends_ with
    | none =>
      have h1 := dlookup_resolve_ext_none idx k e he hext
      have h2 := dlookup_resolve_ext_none (resolve_inheritance idx) k e h1 hext
      rw [h1, h2]
    | some b =>
      by_cases hbe : b = ""
      · subst hbe
        have h1 := dlookup_resolve_ext_empty idx k e he hext
        have h2 := dlookup_resolve_ext_empty (resolve_inheritance idx) k e h1 hext
        rw [h1, h2]
      · cases hb : dlookup b idx with
        | none =>
          have h1 := dlookup_resolve_base_absent idx k b e he hext hb
          have hb2 : dlookup b (resolve_inheritance idx) = none := by
            rw [dlookup_eq_none_iff, keys_resolve]
            exact (dlookup_eq_none_iff b idx).mp hb
          have h2 := dlookup_resolve_base_absent (resolve_inheritance idx) k b e h1 hext hb2
          rw [h1, h2]
        | some B =>
          have hBext : B.extends_ = none :=
            hH (k, e) (dlookup_mem k e idx he) (b, B) (dlookup_mem b B idx hb) hext
          have h1 := dlookup_resolve_fill idx k b e B hnd he hext hbe hb hBext
          have hB1 : dlookup b (resolve_inheritance idx) = some B :=
            dlookup_resolve_ext_none idx b B hb hBext
          have hnd2 : (keys (resolve_inheritance idx)).Nodup := by
            rw [keys_resolve]
            exact hnd
          have hext2 : (fill e B).extends_ = some b := by
            rw [fill_extends]
            exact hext
          have h2 := dlookup_resolve_fill (resolve_inheritance idx) k b (fill e B) B hnd2 h1
            hext2 hbe hB1 hBext
          rw [h1, h2, fill_fill]

theorem claim_C4_witness :
    dlookup ("A") (resolve_inheritance (resolve_inheritance idxAB)) =
      dlookup ("A") (resolve_inheritance idxAB) :=
  claim_C4 idxAB (by decide) (by decide) ("A")

/-- C5: for every pin-declaration match in a block, the extracted pin's `y`
is the negation of the matched source y-coordinate and its `x` is the matched
source x-coordinate unchanged. -/
theorem claim_C5 (sid block : String) (e : SymbolEntry) (i : Nat) (c : Caps)
    (xs ys : List Char) (xv yv : ℚ)
    (hp : parse_symbol_block sid block = some e)
    (hm : (reMatches pinRE (block.toList))[i]? = some c)
    (h2 : getCap 2 c = some xs) (hx : pyFloatL xs = some xv)
    (h3 : getCap 3 c = some ys) (hy : pyFloatL ys = some yv) :
    ∃ p, e.pins[i]? = some p ∧ p.x = xv ∧ p.y = -yv := by
  obtain ⟨pins, bb, hpins, hbb, he⟩ := parse_symbol_block_eq sid block e hp
  obtain ⟨p, hl, hmk⟩ := pinsOf_get _ pins hpins i c hm
  obtain ⟨hpx, hpy⟩ := mkPin_xy c p xs ys xv yv hmk h2 h3 hx hy
  refine ⟨p, ?_, hpx, hpy⟩
  rw [he]
  exact hl

theorem claim_C5_witness :
    ∃ p, ({ id := "P1",
            pins := [{ electrical_type := "passive", x := 1, y := -2, orient := 0,
                       name := "P", number := "7" }],
            bbox := none, extends_ := none,
            kicad_sym_raw := blkPin } : SymbolEntry).pins[0]? = some p ∧
      p.x = (1 : ℚ) ∧ p.y = (-2 : ℚ) := by
  have h := claim_C5 ("P1") blkPin
    { id := "P1",
      pins := [{ electrical_type := "passive", x := 1, y := -2, orient := 0,
                 name := "P", number := "7" }],
      bbox := none, extends_ := none, kicad_sym_raw := blkPin }
    0 ([(1, ['p', 'a', 's', 's', 'i', 'v', 'e']), (2, ['1']), (3, ['2']), (5, ['P']), (6, ['7'])])
    (['1']) (['2']) 1 2
    (by decide) (by decide) (by decide) (by decide) (by decide) (by decide)
  exact h

/-- C6: a block with an explicit rectangle primitive gets the min/max
envelope of the two corner points as its bounding box, for either ordering of
the corners, and the rectangle branch is taken regardless of any polyline
points in the block. -/
theorem claim_C6 (sid block : String) (e : SymbolEntry) (caps : Caps) (rest : List Char)
    (t1 t2 t3 t4 : List Char) (x1 y1 x2 y2 : ℚ)
    (hp : parse_symbol_block sid block = some e)
    (hs : searchFrom rectRE (block.toList) = some (caps, rest))
    (h1 : getCap 1 caps = some t1) (f1 : pyFloatL t1 = some x1)
    (h2 : getCap 2 caps = some t2) (f2 : pyFloatL t2 = some y1)
    (h3 : getCap 3 caps = some t3) (f3 : pyFloatL t3 = some x2)
    (h4 : getCap 4 caps = some t4) (f4 : pyFloatL t4 = some y2) :
    e.bbox = some { minX := min x1 x2, maxX := max x1 x2,
                    minY := min y1 y2, maxY := max y1 y2 } := by
  obtain ⟨pins, bb, hpins, hbb, he⟩ := parse_symbol_block_eq sid block e hp
  have hr := bboxOf_rect (block.toList) caps rest x1 y1 x2 y2 t1 t2 t3 t4 hs h1 f1 h2 f2
    h3 f3 h4 f4
  rw [hbb] at hr
  injection hr with hr
  rw [he]
  exact hr

theorem claim_C6_witness :
    ({ id := "R", pins := [], bbox := some ⟨2, 5, 1, 3⟩, extends_ := none,
       kicad_sym_raw := blkRect } : SymbolEntry).bbox =
      some { minX := min 5 2, maxX := max 5 2, minY := min 1 3, maxY := max 1 3 } :=
  claim_C6 ("R") blkRect
    { id := "R", pins := [], bbox := some ⟨2, 5, 1, 3⟩, extends_ := none,
      kicad_sym_raw := blkRect }
    ([(1, ['5']), (2, ['1']), (3, ['2']), (4, ['3'])]) ([')', ')'])
    (['5']) (['1']) (['2']) (['3']) 5 1 2 3
    (by decide) (by decide) (by decide) (by decide) (by decide) (by decide) (by decide)
    (by decide) (by decide) (by decide)

/-- C7: when two file contents are merged in sequence and both define an
identifier, the merged index holds exactly the entry parsed from the later
file — the entry is replaced whole, with no field-wise merging. -/
theorem claim_C7 (c1 c2 : String) (ms m2 : Index) (k : String) (e : SymbolEntry)
    (h : buildIndex [c1, c2] = some ms)
    (h2 : parse_kicad_sym c2 = some m2)
    (hk : dlookup k m2 = some e) :
    dlookup k ms = some e := by
  unfold buildIndex at h
  cases hp1 : parse_kicad_sym c1 with
  | none => simp [buildIndexAux, hp1] at h
  | some m1 =>
    simp only [buildIndexAux, hp1, h2, Option.some.injEq] at h
    subst h
    exact dlookup_dictUpdateAll m2 _ k e (parse_kicad_sym_nodup c2 m2 h2) hk

def entX2 : SymbolEntry := { id := "X", pins := [], bbox := none, extends_ := none,
                             kicad_sym_raw := "(symbol \"X\" (b))" }

theorem claim_C7_witness :
    dlookup ("X") [(("X" : String), entX2)] = some entX2 :=
  claim_C7 ("(symbol \"X\" (a))") ("(symbol \"X\" (b))")
    ([(("X" : String), entX2)]) ([(("X" : String), entX2)]) ("X") entX2
    (by decide) (by decide) (by decide)

/-- C8: an entry whose extends target is not a key of the index is left
entirely unchanged by inheritance resolution (in particular its pin list
stays empty and its bounding box stays unset when they started that way). -/
theorem claim_C8 (idx : Index) (k b : String) (e : SymbolEntry)
    (h : dlookup k idx = some e) (he : e.extends_ = some b)
    (hb : dlookup b idx = none) :
    dlookup k (resolve_inheritance idx) = some e :=
  dlookup_resolve_base_absent idx k b e h he hb

theorem claim_C8_witness :
    dlookup ("A") (resolve_inheritance idxA) = some entA :=
  claim_C8 idxA ("A") ("B") entA (by decide) (by decide) (by decide)

/-- C9: every bounding box produced by field extraction (rectangle branch or
polyline aggregation) satisfies minX ≤ maxX and minY ≤ maxY, and the
resolution pass preserves this invariant across the whole index. -/
theorem claim_C9 :
    (∀ (sid block : String) (e : SymbolEntry) (bb : BBox),
      parse_symbol_block sid block = some e → e.bbox = some bb → bboxInv bb) ∧
    (∀ idx : Index, (∀ p ∈ idx, ∀ bb, (Prod.snd p).bbox = some bb → bboxInv bb) →
      ∀ p ∈ resolve_inheritance idx, ∀ bb, (Prod.snd p).bbox = some bb → bboxInv bb) := by
  constructor
  · intro sid block e bb hp hbb
    obtain ⟨pins, ob, hpins, hob, he⟩ := parse_symbol_block_eq sid block e hp
    rw [he] at hbb
    exact bboxOf_inv (block.toList) ob bb hob hbb
  · intro idx h
    exact foldl_resolveStep_bbox_inv (keys idx) idx h

theorem claim_C9_witness :
    bboxInv { minX := min 5 2, maxX := max 5 2, minY := min 1 3, maxY := max 1 3 } ∧
    (∀ p ∈ resolve_inheritance idxR, ∀ bb, (Prod.snd p).bbox = some bb → bboxInv bb) := by
  constructor
  · exact claim_C9.1 ("R") blkRect
      { id := "R", pins := [], bbox := some ⟨2, 5, 1, 3⟩, extends_ := none,
        kicad_sym_raw := blkRect }
      { minX := min 5 2, maxX := max 5 2, minY := min 1 3, maxY := max 1 3 }
      (by decide) (by decide)
  · refine claim_C9.2 idxR ?_
    intro p hp bb hbb
    have hp' : p = (("R" : String), entR) := by simpa [idxR] using hp
    subst hp'
    have hbb' : some (⟨0, 1, 0, 1⟩ : BBox) = some bb := hbb
    injection hbb' with hbb'
    rw [← hbb']
    exact ⟨by norm_num, by norm_num⟩

/-- C10: every entry is stored under its own id, and when one input text
declares the same identifier in two blocks, the index holds the entry built
from the block that occurs later in the text. -/
theorem claim_C10 (content : String) (m : Index)
    (h : parse_kicad_sym content = some m) :
    (∀ p ∈ m, (Prod.snd p).id = Prod.fst p) ∧
    (∀ (j : Nat) (b : List Char) (sid : String) (e : SymbolEntry),
      (scanBlocks (content.toList))[j]? = some b →
      blockId b = some sid →
      parse_symbol_block sid (String.mk b) = some e →
      (∀ (j' : Nat) (b' : List Char), j < j' →
        (scanBlocks (content.toList))[j']? = some b' → blockId b' ≠ some sid) →
      dlookup sid m = some e) := by
  constructor
  · exact indexOfBlocks_id _ [] m h (by simp)
  · intro j b sid e hj hid hp hlater
    exact indexOfBlocks_last (scanBlocks (content.toList)) j [] m b sid e h hj hid hp hlater

def entX3 : SymbolEntry := { id := "X", pins := [], bbox := none, extends_ := none,
                             kicad_sym_raw := "(symbol \"X\" (c))" }

theorem claim_C10_witness :
    dlookup ("X") [(("X" : String), entX3)] = some entX3 := by
  refine (claim_C10 ("(symbol \"X\" (a)) (symbol \"X\" (c))")
    ([(("X" : String), entX3)]) (by decide)).2
    1 (("(symbol \"X\" (c))").toList) ("X") entX3
    (by decide) (by decide) (by decide) ?_
  intro j' b' hlt hj'
  have hnone : (scanBlocks (("(symbol \"X\" (a)) (symbol \"X\" (c))").toList))[j']? = none := by
    apply List.getElem?_eq_none
    have hlen : (scanBlocks (("(symbol \"X\" (a)) (symbol \"X\" (c))").toList)).length = 2 := by
      decide
    omega
  rw [hnone] at hj'
  exact Option.noConfusion hj'

end BuildPcb
